import Mathlib

/-!
Verification of the Wordye word-guessing game (`wordye.py`, `ai.py`).

The development embeds the core logic of the repository shallowly:

* the per-letter feedback scoring loop of `Game.guess_word` (`scoreWord`),
* the reference two-pass scoring algorithm of spec section 4.1 (`refScore`),
* the game-session state machine (`Game`, `Game.guessWord`),
* the candidate-elimination solver of `ai.py` (`eliminateStep` and friends).

Words are lists of characters; machine state is passed explicitly.
-/

namespace Wordye

/-- Letter classification states, from the `LetterState` enum in `wordye.py`
(`UNKNOWN`, `NOT_IN_WORD`, `IN_WORD`, `IN_CORRECT_POSITION`). -/
inductive LetterState where
  | unknown
  | notInWord
  | inWord
  | inCorrectPosition
deriving DecidableEq, Repr, Inhabited

/-- A scored letter: a character paired with its classification
(the `Letter` dataclass). -/
structure Letter where
  text : Char
  state : LetterState
deriving DecidableEq, Repr, Inhabited

/-- One completed attempt: a sequence of scored letters (the `Word` dataclass). -/
structure Word where
  letters : List Letter
deriving DecidableEq, Repr, Inhabited

/-- Maximum number of attempts per game (`MAX_ATTEMPTS = 6`). -/
def MAX_ATTEMPTS : Nat := 6

/-- Required guess length (`WORD_LENGTH = 5`). -/
def WORD_LENGTH : Nat := 5

/-- The ascending list of positions of `w` holding the character `c`.
This models the per-letter index lists the Python code builds by enumeration
(`_correct_letter_indices` for the solution, `guess_letter_indices` for the
guess). -/
def letterIndices (w : List Char) (c : Char) : List Nat :=
  (List.range w.length).filter (fun i => decide (w.getD i ' ' = c))

/-- The classification computed by the scoring loop body of `Game.guess_word`
(`wordye.py` lines 105-119) for position `index`, where `guessLetter` and
`correctLetter` are the guess and solution characters at that position. -/
def scoreState (guess solution : List Char) (index : Nat)
    (guessLetter correctLetter : Char) : LetterState :=
  if guessLetter = correctLetter then .inCorrectPosition
  else if guessLetter ∈ solution then
    let correctIndices := letterIndices solution guessLetter
    let guessIndices := letterIndices guess guessLetter
    let correctlyGuessedIndices := guessIndices.filter (fun i => decide (i ∈ correctIndices))
    let incorrectlyGuessedIndices := guessIndices.filter (fun i => decide (¬ i ∈ correctIndices))
    if incorrectlyGuessedIndices.indexOf index + correctlyGuessedIndices.length
        < correctIndices.length
    then .inWord else .notInWord
  else .notInWord

/-- The full per-letter classification sequence computed by the scoring loop of
`Game.guess_word`: `for index, (guess_letter, correct_letter) in
enumerate(zip(guess, self._solution))`. -/
def scoreWord (guess solution : List Char) : List Letter :=
  ((guess.zip solution).enum).map (fun x =>
    { text := x.2.1, state := scoreState guess solution x.1 x.2.1 x.2.2 })

/-- Modelled from the spec, section 4.1 (the two-pass reference Feedback
Engine): the second, left-to-right pass.  `rem` carries, per letter, the number
of solution occurrences not yet consumed by first-pass `Correct` matches or by
earlier `Present` matches of this pass; positions already `Correct` are passed
through, a non-`Correct` position whose letter occurs in the solution with an
unconsumed occurrence becomes `Present` and consumes one occurrence, and any
other position becomes `Absent`. -/
def refPass2 (solution : List Char) :
    List (Char × Char) → (Char → Nat) → List Letter
  | [], _ => []
  | (g, c) :: rest, rem =>
    if g = c then ⟨g, .inCorrectPosition⟩ :: refPass2 solution rest rem
    else if g ∈ solution ∧ 0 < rem g then
      ⟨g, .inWord⟩ :: refPass2 solution rest (fun x => if x = g then rem g - 1 else rem x)
    else ⟨g, .notInWord⟩ :: refPass2 solution rest rem

/-- Modelled from the spec, section 4.1: the complete two-pass reference
scoring algorithm.  The first pass marks exact-position matches `Correct` and
records, per letter, how many solution occurrences remain unconsumed; the
second pass is `refPass2`. -/
def refScore (guess solution : List Char) : List Letter :=
  refPass2 solution (guess.zip solution)
    (fun c => solution.count c -
      ((guess.zip solution).countP (fun p => decide (p.1 = c ∧ p.1 = p.2))))

/-- Default scored letter used with `List.getD`. -/
def dL : Letter := ⟨' ', .unknown⟩

/-- Default character pair used with `List.getD`. -/
def dP : Char × Char := (' ', ' ')

/-- Number of positions before position `i` where the guess has letter `c` but
the solution has a different letter (the earlier occurrences of `c` competing
for `Present` slots). -/
def rankUpTo (guess solution : List Char) (i : Nat) (c : Char) : Nat :=
  ((guess.zip solution).take i).countP (fun p => decide (p.1 = c ∧ ¬ p.1 = p.2))

/-- Number of positions where both guess and solution have letter `c`
(the `Correct` matches for `c`). -/
def corrCount (guess solution : List Char) (c : Char) : Nat :=
  (guess.zip solution).countP (fun p => decide (p.1 = c ∧ p.2 = c))

/-- Closed-form per-position classification used as a bridge between the code
scoring loop and the spec reference algorithm. -/
def formulaState (guess solution : List Char) (i : Nat) : LetterState :=
  if guess.getD i ' ' = solution.getD i ' ' then .inCorrectPosition
  else if guess.getD i ' ' ∈ solution ∧
      rankUpTo guess solution i (guess.getD i ' ') +
        corrCount guess solution (guess.getD i ' ') <
        solution.count (guess.getD i ' ') then .inWord
  else .notInWord

/-- Positional description of the output of `refPass2`: the classification at
position `i` depends only on the pair at `i`, the count of earlier competing
occurrences, and the initial remaining-count function. -/
def pass2Formula (sol : List Char) (pairs : List (Char × Char)) (rem : Char → Nat)
    (i : Nat) : Letter :=
  { text := (pairs.getD i dP).1,
    state :=
      if (pairs.getD i dP).1 = (pairs.getD i dP).2 then .inCorrectPosition
      else if (pairs.getD i dP).1 ∈ sol ∧
          (pairs.take i).countP (fun p => decide (p.1 = (pairs.getD i dP).1 ∧ ¬ p.1 = p.2)) <
            rem (pairs.getD i dP).1
        then .inWord else .notInWord }

/-- Rejection signals of `Game.guess_word`: the three exception classes
`HardModeRuleViolation`, `WordLengthViolation`, `WordExistenceViolation`. -/
inductive Violation where
  | hardModeRule
  | wordLength
  | wordExistence
deriving DecidableEq, Repr

/-- A game session (`Game.__init__` state): hard-mode flag, ordered attempt
list, per-letter keyboard map, hidden solution and acceptable-guess set. -/
structure Game where
  hardMode : Bool
  attempts : List Word
  letters : Char → LetterState
  solution : List Char
  validGuesses : List (List Char)

/-- The `Game.won` property: at least one attempt was made, no more than the
maximum, and every letter of the last attempt is in the correct position. -/
def Game.won (g : Game) : Bool :=
  decide (0 < g.attempts.length) && decide (g.attempts.length ≤ MAX_ATTEMPTS) &&
    (g.attempts.getLastD ⟨[]⟩).letters.all (fun l => decide (l.state = .inCorrectPosition))

/-- The `Game.game_over` property: won, or the maximum attempt count reached. -/
def Game.gameOver (g : Game) : Bool :=
  g.won || decide (MAX_ATTEMPTS ≤ g.attempts.length)

/-- The hard-mode check of `Game.guess_word` (lines 89-94): when hard mode is
on and a previous attempt exists, the (already uppercased) guess `u` violates
the rule when some position of the previous attempt classified
`IN_CORRECT_POSITION` holds a different letter in `u`. -/
def Game.hardViolation (g : Game) (u : List Char) : Bool :=
  g.hardMode && !g.attempts.isEmpty &&
    (List.range (g.attempts.getLastD ⟨[]⟩).letters.length).any (fun i =>
      decide (((g.attempts.getLastD ⟨[]⟩).letters.getD i dL).state = .inCorrectPosition) &&
        decide (¬ u.getD i ' ' = ((g.attempts.getLastD ⟨[]⟩).letters.getD i dL).text))

/-- The `Game.guess_word` method.  Python raises exceptions and mutates
`self`; here the result is the post-call session state paired with the raised
violation, if any (`none` with an unchanged state models the early `return`
when the game is over, `none` with an extended attempt list the success path).
The success path resets every keyboard entry other than `NOT_IN_WORD` to
`UNKNOWN`, scores the guess, appends the attempt, and writes each scored
letter into the keyboard map in position order. -/
def Game.guessWord (g : Game) (guess : List Char) : Game × Option Violation :=
  if g.gameOver then (g, none)
  else if guess = [] ∨ guess.length ≠ WORD_LENGTH then (g, some .wordLength)
  else if (guess.map Char.toUpper) ∉ g.validGuesses then (g, some .wordExistence)
  else if g.hardViolation (guess.map Char.toUpper) then (g, some .hardModeRule)
  else
    ({ g with
        attempts := g.attempts ++ [⟨scoreWord (guess.map Char.toUpper) g.solution⟩],
        letters := (scoreWord (guess.map Char.toUpper) g.solution).foldl
          (fun m l => Function.update m l.text l.state)
          (fun c => if g.letters c = .notInWord then .notInWord else .unknown) },
      none)

/-- The `AIGame.filter_candidates_for_exact_match` method of `ai.py`. -/
def filterCandidatesForExactMatch (cands : List (List Char)) (letter : Char)
    (index : Nat) : List (List Char) :=
  cands.filter (fun w => decide (w.getD index ' ' = letter))

/-- The `AIGame.filter_candidates_for_inexact_match` method of `ai.py`. -/
def filterCandidatesForInexactMatch (cands : List (List Char)) (letter : Char)
    (index : Nat) : List (List Char) :=
  cands.filter (fun w => decide (¬ w.getD index ' ' = letter ∧ letter ∈ w))

/-- The `AIGame.exclude_candidates` method of `ai.py`: remove every candidate
containing `letter`. -/
def excludeCandidates (cands : List (List Char)) (letter : Char) : List (List Char) :=
  cands.filter (fun w => decide (¬ letter ∈ w))

/-- One iteration of the elimination loop of `AIGame.get_guess` (`ai.py` lines
30-40), applied for the scored letter `l` at position `index` of the previous
attempt `prev`.  The `Absent` branch only fires when no occurrence of the same
letter elsewhere in `prev` was classified `Present` or `Correct`. -/
def eliminateStep (cands : List (List Char)) (prev : Word) (index : Nat)
    (l : Letter) : List (List Char) :=
  if l.state = .inCorrectPosition then
    filterCandidatesForExactMatch cands l.text index
  else if l.state = .inWord then
    filterCandidatesForInexactMatch cands l.text index
  else if l.state = .notInWord ∧
      ¬ prev.letters.any (fun l2 =>
          decide (l2.text = l.text) &&
            (decide (l2.state = .inWord) || decide (l2.state = .inCorrectPosition))) then
    excludeCandidates cands l.text
  else cands

/-- The candidate-count report of `AIGame.get_guess` (`ai.py` lines 41-44):
with more than one candidate it prints the considering-count message,
otherwise — including with an empty candidate set — the solved-it message. -/
inductive SolverMessage where
  | considering
  | solvedIt
deriving DecidableEq, Repr

/-- Which message `AIGame.get_guess` prints for a given candidate set. -/
def solverMessage (cands : List (List Char)) : SolverMessage :=
  if 1 < cands.length then .considering else .solvedIt

/-- The `random.choice(list(self._candidates))` call of `AIGame.get_guess`
(`ai.py` line 45): a uniform choice, modelled by an arbitrary index `k` taken
modulo the size of the set; on an empty sequence `random.choice` raises a bare
`IndexError`, modelled by `none`. -/
def randomChoice (cands : List (List Char)) (k : Nat) : Option (List Char) :=
  cands.get? (k % cands.length)

/-- Classification written by the last occurrence of character `c` in a scored
letter list, if any — the net effect on key `c` of the keyboard-map writes
`self._letters[guess_letter] = state` performed in position order. -/
def lastOcc : List Letter → Char → Option LetterState
  | [], _ => none
  | l :: ls, c =>
    match lastOcc ls c with
    | some s => some s
    | none => if l.text = c then some l.state else none

/-- Informativeness rank of a classification, per the spec total order
`Correct` over `Present` over `Absent` over `Unknown`. -/
def informRank : LetterState → Nat
  | .unknown => 0
  | .notInWord => 1
  | .inWord => 2
  | .inCorrectPosition => 3

/-- Maximum of two classifications under the informativeness order. -/
def stateMax (a b : LetterState) : LetterState :=
  if informRank a < informRank b then b else a

/-- Best-known classification of character `c` across all attempts of the
session so far (the mapping the spec ascribes to the keyboard state). -/
def bestKnown (g : Game) (c : Char) : LetterState :=
  g.attempts.foldl
    (fun acc w => w.letters.foldl
      (fun acc2 l => if l.text = c then stateMax acc2 l.state else acc2) acc)
    .unknown

/-- Freshly constructed session (`Game.__init__`): no attempts yet, keyboard
all `UNKNOWN`; per the Word Catalog contract the hidden solution is a
word-length word. -/
def Game.Initial (g : Game) : Prop :=
  g.attempts = [] ∧ g.letters = (fun _ => LetterState.unknown) ∧
    g.solution.length = WORD_LENGTH

/-- Sessions reachable from a fresh session by any sequence of `guess_word`
calls (valid or not). -/
inductive Reachable : Game → Prop where
  | init : ∀ {g : Game}, Game.Initial g → Reachable g
  | step : ∀ {g : Game} (s : List Char), Reachable g → Reachable (g.guessWord s).1

/-- The state produced by the success path of `Game.guess_word` for the
already-uppercased guess `u`: keyboard reset, attempt appended, keyboard
updated with each scored letter in position order. -/
def Game.applyGuess (g : Game) (u : List Char) : Game :=
  { g with
      attempts := g.attempts ++ [⟨scoreWord u g.solution⟩],
      letters := (scoreWord u g.solution).foldl
        (fun m l => Function.update m l.text l.state)
        (fun c => if g.letters c = .notInWord then .notInWord else .unknown) }

/-- Test fixture words. -/
def wABIDE : List Char := ['A','B','I','D','E']

/-- Test fixture word. -/
def wABODE : List Char := ['A','B','O','D','E']

/-- Test fixture word. -/
def wAZZZZ : List Char := ['A','Z','Z','Z','Z']

/-- Test fixture word. -/
def wBBBBB : List Char := ['B','B','B','B','B']

/-- Test fixture word. -/
def wQUICK : List Char := ['Q','U','I','C','K']

/-- A fresh test session with solution `ABIDE`. -/
def testGame : Game :=
  { hardMode := false, attempts := [], letters := fun _ => LetterState.unknown,
    solution := wABIDE, validGuesses := [wABIDE, wABODE, wAZZZZ, wBBBBB, wQUICK] }

/-- A fresh hard-mode test session. -/
def testGameHard : Game := { testGame with hardMode := true }

/-- The hard-mode test session after one attempt (`AZZZZ` against `ABIDE`). -/
def testGameHard1 : Game :=
  { testGameHard with attempts := [⟨scoreWord wAZZZZ wABIDE⟩] }

/-- A finished (won) test session. -/
def testGameWon : Game :=
  { testGame with attempts := [⟨scoreWord wABIDE wABIDE⟩] }

lemma count_eq_countP_decide (l : List Char) (c : Char) :
    l.count c = l.countP (fun x => decide (x = c)) := by
  induction l with
  | nil => rfl
  | cons a l ih => simp [List.count_cons, List.countP_cons, ih]

lemma length_filter_range {α : Type} (w : List α) (p : α → Bool) (d : α) :
    ∀ i, i ≤ w.length →
      ((List.range i).filter (fun j => p (w.getD j d))).length = (w.take i).countP p := by
  intro i
  induction i with
  | zero => simp
  | succ i ih =>
      intro hi
      have hiw : i < w.length := hi
      have hle : i ≤ w.length := Nat.le_of_lt hiw
      rw [List.range_succ, List.filter_append, List.length_append, ih hle,
        List.take_succ, List.countP_append]
      have hget : w[i]? = some (w.getD i d) := by
        rw [List.getD_eq_getElem w d hiw]
        exact List.getElem?_eq_getElem hiw
      rw [hget]
      have htl : (some (w.getD i d)).toList = [w.getD i d] := rfl
      rw [htl, List.countP_singleton]
      have hfil : List.filter (fun j => p (w.getD j d)) [i] =
          if p (w.getD i d) then [i] else [] := by
        by_cases hp : p (w.getD i d)
        · rw [if_pos hp]
          simp only [List.filter_cons, List.filter_nil]
          rw [if_pos hp]
        · rw [if_neg hp]
          simp only [List.filter_cons, List.filter_nil]
          rw [if_neg hp]
      rw [hfil]
      by_cases hp : p (w.getD i d)
      · rw [if_pos hp, if_pos hp]
        rfl
      · rw [if_neg hp, if_neg hp]
        rfl

lemma indexOf_append_cons_self (l₁ l₂ : List Nat) (a : Nat) (h : ¬ a ∈ l₁) :
    (l₁ ++ a :: l₂).indexOf a = l₁.length := by
  induction l₁ with
  | nil => simp [List.indexOf_cons_self]
  | cons x xs ih =>
      have hx : x ≠ a := by
        intro hxa
        exact h (by simp [hxa])
      have hxs : ¬ a ∈ xs := fun hm => h (by simp [hm])
      simp only [List.cons_append, List.indexOf_cons_ne _ hx, ih hxs, List.length_cons]

lemma indexOf_filter_range (q : Nat → Bool) (i : Nat) (hq : q i = true) :
    ∀ n, i < n →
      ((List.range n).filter q).indexOf i = ((List.range i).filter q).length := by
  intro n
  induction n with
  | zero => omega
  | succ n ih =>
      intro hin
      by_cases hlt : i < n
      · have hmem : i ∈ (List.range n).filter q := by
          rw [List.mem_filter]
          exact ⟨List.mem_range.mpr hlt, hq⟩
        rw [List.range_succ, List.filter_append, List.indexOf_append_of_mem hmem]
        exact ih hlt
      · have hi : i = n := by omega
        subst hi
        have hnm : ¬ i ∈ (List.range i).filter q := by
          intro hm
          rw [List.mem_filter, List.mem_range] at hm
          omega
        rw [List.range_succ, List.filter_append]
        have : List.filter q [i] = [i] := by simp [hq]
        rw [this, indexOf_append_cons_self _ _ _ hnm]

lemma refPass2_length (sol : List Char) :
    ∀ (pairs : List (Char × Char)) (rem : Char → Nat),
      (refPass2 sol pairs rem).length = pairs.length := by
  intro pairs
  induction pairs with
  | nil => intro rem; rfl
  | cons p rest ih =>
      intro rem
      obtain ⟨g, c⟩ := p
      by_cases h1 : g = c
      · simp [refPass2, h1, ih]
      · by_cases h2 : g ∈ sol ∧ 0 < rem g
        · simp [refPass2, h1, h2, ih]
        · simp [refPass2, h1, h2, ih]

lemma refPass2_getD (sol : List Char) :
    ∀ (pairs : List (Char × Char)) (rem : Char → Nat) (i : Nat), i < pairs.length →
      (refPass2 sol pairs rem).getD i dL = pass2Formula sol pairs rem i := by
  intro pairs
  induction pairs with
  | nil => intro rem i h; simp at h
  | cons p rest ih =>
      intro rem i h
      obtain ⟨g, c⟩ := p
      match i with
      | 0 =>
          by_cases h1 : g = c
          · simp [refPass2, pass2Formula, h1, dP]
          · by_cases h2 : g ∈ sol ∧ 0 < rem g
            · simp [refPass2, pass2Formula, h1, h2, dP]
            · simp [refPass2, pass2Formula, h1, h2, dP]
      | Nat.succ j =>
          have hj : j < rest.length := by simpa using h
          by_cases h1 : g = c
          · have hstep : refPass2 sol ((g, c) :: rest) rem =
                ⟨g, .inCorrectPosition⟩ :: refPass2 sol rest rem := by
              simp [refPass2, h1]
            rw [hstep, List.getD_cons_succ, ih rem j hj]
            unfold pass2Formula
            simp only [List.getD_cons_succ, List.take_succ_cons, List.countP_cons]
            have hpred : (decide (g = (rest.getD j dP).1 ∧ ¬ g = c)) = false := by
              simp [h1]
            rw [hpred]
            simp
          · by_cases h2 : g ∈ sol ∧ 0 < rem g
            · have hstep : refPass2 sol ((g, c) :: rest) rem =
                  ⟨g, .inWord⟩ ::
                    refPass2 sol rest (fun x => if x = g then rem g - 1 else rem x) := by
                simp [refPass2, h1, h2]
              rw [hstep, List.getD_cons_succ,
                ih (fun x => if x = g then rem g - 1 else rem x) j hj]
              unfold pass2Formula
              simp only [List.getD_cons_succ, List.take_succ_cons, List.countP_cons]
              refine congrArg (fun s => Letter.mk (rest.getD j dP).1 s) ?_
              refine if_congr Iff.rfl rfl (if_congr (and_congr Iff.rfl ?_) rfl rfl)
              by_cases hg : (rest.getD j dP).1 = g
              · have hpred : (decide (g = (rest.getD j dP).1 ∧ ¬ g = c)) = true := by
                  simp only [decide_eq_true_eq]
                  exact ⟨hg.symm, h1⟩
                rw [if_pos hg, hpred]
                have hrg : rem (rest.getD j dP).1 = rem g := by rw [hg]
                have hone : (if (true = true) then 1 else 0) = 1 := rfl
                have hpos := h2.2
                rw [hone, hrg]
                omega
              · have hpred : (decide (g = (rest.getD j dP).1 ∧ ¬ g = c)) = false := by
                  simp only [decide_eq_false_iff_not]
                  rintro ⟨hgx, _⟩
                  exact hg hgx.symm
                rw [if_neg hg, hpred]
                simp
            · have hstep : refPass2 sol ((g, c) :: rest) rem =
                  ⟨g, .notInWord⟩ :: refPass2 sol rest rem := by
                simp [refPass2, h1, h2]
              rw [hstep, List.getD_cons_succ, ih rem j hj]
              unfold pass2Formula
              simp only [List.getD_cons_succ, List.take_succ_cons, List.countP_cons]
              refine congrArg (fun s => Letter.mk (rest.getD j dP).1 s) ?_
              refine if_congr Iff.rfl rfl (if_congr ?_ rfl rfl)
              by_cases hg : (rest.getD j dP).1 = g
              · have hpred : (decide (g = (rest.getD j dP).1 ∧ ¬ g = c)) = true := by
                  simp only [decide_eq_true_eq]
                  exact ⟨hg.symm, h1⟩
                rw [hpred]
                have hrg : rem (rest.getD j dP).1 = rem g := by rw [hg]
                have hone : (if (true = true) then 1 else 0) = 1 := rfl
                have hmemiff : ((rest.getD j dP).1 ∈ sol) ↔ (g ∈ sol) := by rw [hg]
                rw [hone, hrg]
                constructor
                · rintro ⟨hmem, hlt⟩
                  exact absurd (And.intro (hmemiff.mp hmem) (by omega)) h2
                · rintro ⟨hmem, hlt⟩
                  exact absurd (And.intro (hmemiff.mp hmem) (by omega)) h2
              · have hpred : (decide (g = (rest.getD j dP).1 ∧ ¬ g = c)) = false := by
                  simp only [decide_eq_false_iff_not]
                  rintro ⟨hgx, _⟩
                  exact hg hgx.symm
                rw [hpred]
                simp

lemma countP_congr_mem {α : Type} (l : List α) (p q : α → Bool)
    (h : ∀ a ∈ l, p a = q a) : l.countP p = l.countP q := by
  rw [List.countP_eq_length_filter, List.countP_eq_length_filter, List.filter_congr h]

lemma zip_getD (a b : List Char) (i : Nat) (ha : i < a.length) (hb : i < b.length) :
    (a.zip b).getD i dP = (a.getD i ' ', b.getD i ' ') := by
  have hz : i < (a.zip b).length := by rw [List.length_zip]; omega
  rw [List.getD_eq_getElem _ _ hz, List.getElem_zip,
    List.getD_eq_getElem _ _ ha, List.getD_eq_getElem _ _ hb]

lemma mem_letterIndices (w : List Char) (g : Char) (j : Nat) :
    j ∈ letterIndices w g ↔ (j < w.length ∧ w.getD j ' ' = g) := by
  unfold letterIndices
  rw [List.mem_filter, List.mem_range, decide_eq_true_eq]

lemma letterIndices_length (solution : List Char) (g : Char) :
    (letterIndices solution g).length = solution.count g := by
  unfold letterIndices
  rw [length_filter_range solution (fun x => decide (x = g)) ' ' solution.length
    (Nat.le_refl _), List.take_length, ← count_eq_countP_decide]

lemma correctlyGuessed_length (guess solution : List Char)
    (hlen : guess.length = solution.length) (g : Char) :
    ((letterIndices guess g).filter (fun j => decide (j ∈ letterIndices solution g))).length
      = corrCount guess solution g := by
  have hzlen : (guess.zip solution).length = guess.length := by
    rw [List.length_zip]; omega
  have houter : letterIndices guess g =
      (List.range guess.length).filter (fun j => decide (guess.getD j ' ' = g)) := rfl
  rw [houter, List.filter_filter]
  have hcong : ∀ j ∈ List.range guess.length,
      (decide (j ∈ letterIndices solution g) && decide (guess.getD j ' ' = g)) =
        ((fun p : Char × Char => decide (p.1 = g ∧ p.2 = g)) ((guess.zip solution).getD j dP)) := by
    intro j hj
    rw [List.mem_range] at hj
    rw [zip_getD guess solution j hj (by omega)]
    rw [Bool.eq_iff_iff]
    simp only [Bool.and_eq_true, decide_eq_true_eq, mem_letterIndices]
    constructor
    · rintro ⟨⟨hjm, hsg⟩, hgg⟩
      exact ⟨hgg, hsg⟩
    · rintro ⟨hgg, hsg⟩
      exact ⟨⟨by omega, hsg⟩, hgg⟩
  have h1 := List.filter_congr hcong
  have h2 := length_filter_range (guess.zip solution)
    (fun p : Char × Char => decide (p.1 = g ∧ p.2 = g)) dP guess.length (by omega)
  have h3 : ((guess.zip solution).take guess.length).countP
      (fun p : Char × Char => decide (p.1 = g ∧ p.2 = g)) = corrCount guess solution g := by
    rw [show (guess.zip solution).take guess.length = guess.zip solution from by
      rw [← hzlen, List.take_length]]
    rfl
  exact (congrArg List.length h1).trans (h2.trans h3)

lemma incorrectlyGuessed_indexOf (guess solution : List Char)
    (hlen : guess.length = solution.length) (i : Nat) (hi : i < guess.length)
    (hne : ¬ guess.getD i ' ' = solution.getD i ' ') :
    ((letterIndices guess (guess.getD i ' ')).filter
        (fun j => decide (¬ j ∈ letterIndices solution (guess.getD i ' ')))).indexOf i
      = rankUpTo guess solution i (guess.getD i ' ') := by
  have hzlen : (guess.zip solution).length = guess.length := by
    rw [List.length_zip]; omega
  have houter : letterIndices guess (guess.getD i ' ') =
      (List.range guess.length).filter
        (fun j => decide (guess.getD j ' ' = guess.getD i ' ')) := rfl
  rw [houter, List.filter_filter]
  have hQ : (fun j => decide (¬ j ∈ letterIndices solution (guess.getD i ' ')) &&
      decide (guess.getD j ' ' = guess.getD i ' ')) i = true := by
    simp only [Bool.and_eq_true, decide_eq_true_eq, mem_letterIndices]
    constructor
    · rintro ⟨hjm, hsg⟩
      exact hne (by rw [hsg])
    · trivial
  rw [indexOf_filter_range _ i hQ guess.length hi]
  have hcong : ∀ j ∈ List.range i,
      (decide (¬ j ∈ letterIndices solution (guess.getD i ' ')) &&
        decide (guess.getD j ' ' = guess.getD i ' ')) =
      ((fun p : Char × Char => decide (p.1 = guess.getD i ' ' ∧ ¬ p.1 = p.2))
        ((guess.zip solution).getD j dP)) := by
    intro j hj
    rw [List.mem_range] at hj
    have hjn : j < guess.length := by omega
    rw [zip_getD guess solution j hjn (by omega)]
    rw [Bool.eq_iff_iff]
    simp only [Bool.and_eq_true, decide_eq_true_eq, mem_letterIndices]
    constructor
    · rintro ⟨hnm, hgg⟩
      refine ⟨hgg, fun heq => hnm ⟨by omega, ?_⟩⟩
      rw [← heq, hgg]
    · rintro ⟨hgg, hne2⟩
      refine ⟨fun hm => hne2 ?_, hgg⟩
      rw [hgg, hm.2]
  have h1 := List.filter_congr hcong
  have h2 := length_filter_range (guess.zip solution)
    (fun p : Char × Char => decide (p.1 = guess.getD i ' ' ∧ ¬ p.1 = p.2)) dP i (by omega)
  exact (congrArg List.length h1).trans h2

lemma scoreState_formula (guess solution : List Char)
    (hlen : guess.length = solution.length) (i : Nat) (hi : i < guess.length) :
    scoreState guess solution i (guess.getD i ' ') (solution.getD i ' ') =
      formulaState guess solution i := by
  unfold scoreState formulaState
  by_cases h1 : guess.getD i ' ' = solution.getD i ' '
  · rw [if_pos h1, if_pos h1]
  · rw [if_neg h1, if_neg h1]
    by_cases h2 : guess.getD i ' ' ∈ solution
    · rw [if_pos h2]
      simp only
      rw [letterIndices_length, correctlyGuessed_length guess solution hlen,
        incorrectlyGuessed_indexOf guess solution hlen i hi h1]
      refine if_congr ?_ rfl rfl
      constructor
      · intro hlt
        exact ⟨h2, hlt⟩
      · intro hand
        exact hand.2
    · rw [if_neg h2]
      have hcond : ¬ (guess.getD i ' ' ∈ solution ∧
          rankUpTo guess solution i (guess.getD i ' ') +
            corrCount guess solution (guess.getD i ' ') <
            solution.count (guess.getD i ' ')) := by
        rintro ⟨hm, _⟩
        exact h2 hm
      rw [if_neg hcond]

lemma scoreWord_length (guess solution : List Char) :
    (scoreWord guess solution).length = min guess.length solution.length := by
  simp only [scoreWord, List.length_map, List.enum_length, List.length_zip]

lemma scoreWord_getD (guess solution : List Char) (hlen : guess.length = solution.length)
    (i : Nat) (hi : i < guess.length) :
    (scoreWord guess solution).getD i dL =
      { text := guess.getD i ' ', state := formulaState guess solution i } := by
  have him : i < solution.length := by omega
  have hi2 : i < (scoreWord guess solution).length := by
    rw [scoreWord_length]; omega
  rw [List.getD_eq_getElem _ _ hi2]
  simp only [scoreWord, List.getElem_map, List.getElem_enum, List.getElem_zip]
  rw [List.getD_eq_getElem guess ' ' hi]
  refine congrArg (fun s => Letter.mk (guess.get ⟨i, hi⟩) s) ?_
  have hsf := scoreState_formula guess solution hlen i hi
  rw [List.getD_eq_getElem guess ' ' hi, List.getD_eq_getElem solution ' ' him] at hsf
  exact hsf

lemma refScore_length (guess solution : List Char) :
    (refScore guess solution).length = min guess.length solution.length := by
  rw [refScore, refPass2_length, List.length_zip]

lemma refScore_getD (guess solution : List Char) (hlen : guess.length = solution.length)
    (i : Nat) (hi : i < guess.length) :
    (refScore guess solution).getD i dL =
      { text := guess.getD i ' ', state := formulaState guess solution i } := by
  have him : i < solution.length := by omega
  have hiz : i < (guess.zip solution).length := by rw [List.length_zip]; omega
  rw [refScore, refPass2_getD solution (guess.zip solution) _ i hiz]
  unfold pass2Formula
  have hz1 : ((guess.zip solution).getD i dP).1 = guess.getD i ' ' := by
    rw [zip_getD guess solution i hi him]
  have hz2 : ((guess.zip solution).getD i dP).2 = solution.getD i ' ' := by
    rw [zip_getD guess solution i hi him]
  rw [hz1, hz2]
  refine congrArg (fun s => Letter.mk (guess.getD i ' ') s) ?_
  unfold formulaState
  refine if_congr Iff.rfl rfl (if_congr (and_congr Iff.rfl ?_) rfl rfl)
  have hc : (guess.zip solution).countP
      (fun p => decide (p.1 = guess.getD i ' ' ∧ p.1 = p.2)) =
      corrCount guess solution (guess.getD i ' ') := by
    refine countP_congr_mem _ _ _ ?_
    intro a ha
    rw [Bool.eq_iff_iff]
    simp only [decide_eq_true_eq]
    constructor
    · rintro ⟨ha1, ha2⟩
      exact ⟨ha1, by rw [← ha2, ha1]⟩
    · rintro ⟨ha1, ha2⟩
      exact ⟨ha1, by rw [ha1, ha2]⟩
  beta_reduce
  rw [hc]
  have hr : ((guess.zip solution).take i).countP
      (fun p => decide (p.1 = guess.getD i ' ' ∧ ¬ p.1 = p.2)) =
      rankUpTo guess solution i (guess.getD i ' ') := rfl
  rw [hr]
  omega

lemma score_eq_ref_of_length (guess solution : List Char)
    (hlen : guess.length = solution.length) :
    scoreWord guess solution = refScore guess solution := by
  have hl1 : (scoreWord guess solution).length = guess.length := by
    rw [scoreWord_length]; omega
  have hl2 : (refScore guess solution).length = guess.length := by
    rw [refScore_length]; omega
  apply List.ext_getElem (by rw [hl1, hl2])
  intro i h1 h2
  have hi : i < guess.length := by omega
  calc (scoreWord guess solution).get ⟨i, h1⟩
      = (scoreWord guess solution).getD i dL := (List.getD_eq_getElem _ _ h1).symm
    _ = { text := guess.getD i ' ', state := formulaState guess solution i } :=
        scoreWord_getD guess solution hlen i hi
    _ = (refScore guess solution).getD i dL := (refScore_getD guess solution hlen i hi).symm
    _ = (refScore guess solution).get ⟨i, h2⟩ := List.getD_eq_getElem _ _ h2

/-- C1: for every pair of equal-length uppercase words, the per-letter
classifications computed by the scoring loop of `Game.guess_word` equal the
output of the two-pass reference algorithm of spec section 4.1. -/
theorem scoreWord_eq_refScore (guess solution : List Char)
    (hlen : guess.length = solution.length)
    (_hup1 : ∀ c ∈ guess, c.isUpper) (_hup2 : ∀ c ∈ solution, c.isUpper) :
    scoreWord guess solution = refScore guess solution :=
  score_eq_ref_of_length guess solution hlen

/-- Witness for C1 at the duplicate-letter scenario of spec section 8:
guess `SPEED` against solution `ERASE`. -/
theorem scoreWord_eq_refScore_witness :
    ((['S','P','E','E','D'] : List Char).length = (['E','R','A','S','E'] : List Char).length) ∧
      scoreWord ['S','P','E','E','D'] ['E','R','A','S','E'] =
        refScore ['S','P','E','E','D'] ['E','R','A','S','E'] :=
  ⟨by decide, scoreWord_eq_refScore _ _ (by decide) (by decide) (by decide)⟩

example :
    scoreWord ['S','P','E','E','D'] ['E','R','A','S','E'] =
      [⟨'S', .inWord⟩, ⟨'P', .notInWord⟩, ⟨'E', .inWord⟩, ⟨'E', .inWord⟩,
        ⟨'D', .notInWord⟩] := by decide

example :
    refScore ['S','P','E','E','D'] ['E','R','A','S','E'] =
      [⟨'S', .inWord⟩, ⟨'P', .notInWord⟩, ⟨'E', .inWord⟩, ⟨'E', .inWord⟩,
        ⟨'D', .notInWord⟩] := by decide

example :
    scoreWord ['E','E','A','S','Y'] ['E','R','A','S','E'] =
      refScore ['E','E','A','S','Y'] ['E','R','A','S','E'] := by decide

lemma refPass2_countP_le_rem (sol : List Char) (L : Char) :
    ∀ (pairs : List (Char × Char)) (rem : Char → Nat),
      (refPass2 sol pairs rem).countP
          (fun l => decide (l.text = L ∧
            (l.state = LetterState.inCorrectPosition ∨ l.state = LetterState.inWord)))
        ≤ pairs.countP (fun p => decide (p.1 = L ∧ p.1 = p.2)) + rem L := by
  intro pairs
  induction pairs with
  | nil =>
      intro rem
      simp [refPass2]
  | cons p rest ih =>
      intro rem
      obtain ⟨g, c⟩ := p
      by_cases h1 : g = c
      · have hstep : refPass2 sol ((g, c) :: rest) rem =
            ⟨g, .inCorrectPosition⟩ :: refPass2 sol rest rem := by simp [refPass2, h1]
        rw [hstep, List.countP_cons, List.countP_cons]
        have hOut : decide ((⟨g, LetterState.inCorrectPosition⟩ : Letter).text = L ∧
              ((⟨g, LetterState.inCorrectPosition⟩ : Letter).state = LetterState.inCorrectPosition ∨
                (⟨g, LetterState.inCorrectPosition⟩ : Letter).state = LetterState.inWord)) = decide (g = L) := by simp
        have hIn : decide (((g, c) : Char × Char).1 = L ∧ ((g, c) : Char × Char).1 = ((g, c) : Char × Char).2) =
            decide (g = L) := by simp [h1]
        rw [hOut, hIn]
        have htail := ih rem
        omega
      · by_cases h2 : g ∈ sol ∧ 0 < rem g
        · have hstep : refPass2 sol ((g, c) :: rest) rem =
              ⟨g, .inWord⟩ ::
                refPass2 sol rest (fun x => if x = g then rem g - 1 else rem x) := by
            simp [refPass2, h1, h2]
          rw [hstep, List.countP_cons, List.countP_cons]
          have hOut : decide ((⟨g, LetterState.inWord⟩ : Letter).text = L ∧
              ((⟨g, LetterState.inWord⟩ : Letter).state = LetterState.inCorrectPosition ∨
                (⟨g, LetterState.inWord⟩ : Letter).state = LetterState.inWord)) = decide (g = L) := by simp
          have hIn : decide (((g, c) : Char × Char).1 = L ∧ ((g, c) : Char × Char).1 = ((g, c) : Char × Char).2) =
              false := by simp [h1]
          rw [hOut, hIn]
          have htail := ih (fun x => if x = g then rem g - 1 else rem x)
          beta_reduce at htail
          by_cases hgL : g = L
          · have hd : decide (g = L) = true := by
              rw [decide_eq_true_eq]; exact hgL
            rw [hd, show (if (true = true) then (1 : Nat) else 0) = 1 from rfl,
              show (if (false = true) then (1 : Nat) else 0) = 0 from rfl]
            rw [if_pos hgL.symm] at htail
            have hrg : rem L = rem g := by rw [hgL]
            have hpos := h2.2
            omega
          · have hd : decide (g = L) = false := decide_eq_false hgL
            rw [hd]
            rw [if_neg (fun h => hgL h.symm)] at htail
            omega
        · have hstep : refPass2 sol ((g, c) :: rest) rem =
              ⟨g, .notInWord⟩ :: refPass2 sol rest rem := by
            simp [refPass2, h1, h2]
          rw [hstep, List.countP_cons, List.countP_cons]
          have hOut : decide ((⟨g, LetterState.notInWord⟩ : Letter).text = L ∧
              ((⟨g, LetterState.notInWord⟩ : Letter).state = LetterState.inCorrectPosition ∨
                (⟨g, LetterState.notInWord⟩ : Letter).state = LetterState.inWord)) = false := by simp
          have hIn : decide (((g, c) : Char × Char).1 = L ∧ ((g, c) : Char × Char).1 = ((g, c) : Char × Char).2) =
              false := by simp [h1]
          rw [hOut, hIn]
          have htail := ih rem
          omega

lemma refPass2_countP_le_fst (sol : List Char) (L : Char) :
    ∀ (pairs : List (Char × Char)) (rem : Char → Nat),
      (refPass2 sol pairs rem).countP
          (fun l => decide (l.text = L ∧
            (l.state = LetterState.inCorrectPosition ∨ l.state = LetterState.inWord)))
        ≤ pairs.countP (fun p => decide (p.1 = L)) := by
  intro pairs
  induction pairs with
  | nil =>
      intro rem
      simp [refPass2]
  | cons p rest ih =>
      intro rem
      obtain ⟨g, c⟩ := p
      have hIn : decide (((g, c) : Char × Char).1 = L) = decide (g = L) := rfl
      by_cases h1 : g = c
      · have hstep : refPass2 sol ((g, c) :: rest) rem =
            ⟨g, .inCorrectPosition⟩ :: refPass2 sol rest rem := by simp [refPass2, h1]
        rw [hstep, List.countP_cons, List.countP_cons]
        have hOut : decide ((⟨g, LetterState.inCorrectPosition⟩ : Letter).text = L ∧
              ((⟨g, LetterState.inCorrectPosition⟩ : Letter).state = LetterState.inCorrectPosition ∨
                (⟨g, LetterState.inCorrectPosition⟩ : Letter).state = LetterState.inWord)) = decide (g = L) := by simp
        rw [hOut, hIn]
        have htail := ih rem
        omega
      · by_cases h2 : g ∈ sol ∧ 0 < rem g
        · have hstep : refPass2 sol ((g, c) :: rest) rem =
              ⟨g, .inWord⟩ ::
                refPass2 sol rest (fun x => if x = g then rem g - 1 else rem x) := by
            simp [refPass2, h1, h2]
          rw [hstep, List.countP_cons, List.countP_cons]
          have hOut : decide ((⟨g, LetterState.inWord⟩ : Letter).text = L ∧
              ((⟨g, LetterState.inWord⟩ : Letter).state = LetterState.inCorrectPosition ∨
                (⟨g, LetterState.inWord⟩ : Letter).state = LetterState.inWord)) = decide (g = L) := by simp
          rw [hOut, hIn]
          have htail := ih (fun x => if x = g then rem g - 1 else rem x)
          omega
        · have hstep : refPass2 sol ((g, c) :: rest) rem =
              ⟨g, .notInWord⟩ :: refPass2 sol rest rem := by
            simp [refPass2, h1, h2]
          rw [hstep, List.countP_cons, List.countP_cons]
          have hOut : decide ((⟨g, LetterState.notInWord⟩ : Letter).text = L ∧
              ((⟨g, LetterState.notInWord⟩ : Letter).state = LetterState.inCorrectPosition ∨
                (⟨g, LetterState.notInWord⟩ : Letter).state = LetterState.inWord)) = false := by simp
          rw [hOut, hIn,
            show (if (false = true) then (1 : Nat) else 0) = 0 from rfl]
          have htail := ih rem
          omega

lemma countP_zip_fst (L : Char) :
    ∀ (a b : List Char), a.length = b.length →
      (a.zip b).countP (fun p => decide (p.1 = L)) = a.count L := by
  intro a
  induction a with
  | nil => intro b h; simp
  | cons x xs ih =>
      intro b h
      match b with
      | [] => simp at h
      | y :: ys =>
          have hlen : xs.length = ys.length := by simpa using h
          simp only [List.zip_cons_cons, List.countP_cons, List.count_cons, ih ys hlen]
          by_cases hx : x = L
          · simp [hx]
          · simp [hx]

lemma countP_zip_snd_le (L : Char) :
    ∀ (a b : List Char), a.length = b.length →
      (a.zip b).countP (fun p => decide (p.2 = L)) = b.count L := by
  intro a
  induction a with
  | nil =>
      intro b h
      match b with
      | [] => simp
      | y :: ys => simp at h
  | cons x xs ih =>
      intro b h
      match b with
      | [] => simp at h
      | y :: ys =>
          have hlen : xs.length = ys.length := by simpa using h
          simp only [List.zip_cons_cons, List.countP_cons, List.count_cons, ih ys hlen]
          by_cases hy : y = L
          · simp [hy]
          · simp [hy]

/-- C2: in a scored attempt, the number of positions carrying letter `L` that
are classified `Correct` or `Present` never exceeds the smaller of the number
of occurrences of `L` in the guess and in the solution. -/
theorem multiplicity_law (guess solution : List Char)
    (hlen : guess.length = solution.length) (L : Char) :
    (scoreWord guess solution).countP
        (fun l => decide (l.text = L ∧
          (l.state = LetterState.inCorrectPosition ∨ l.state = LetterState.inWord)))
      ≤ min (guess.count L) (solution.count L) := by
  rw [score_eq_ref_of_length guess solution hlen, refScore]
  set rem0 : Char → Nat := fun c => solution.count c -
    ((guess.zip solution).countP (fun p => decide (p.1 = c ∧ p.1 = p.2))) with hrem0
  have hb1 := refPass2_countP_le_rem solution L (guess.zip solution) rem0
  have hb2 := refPass2_countP_le_fst solution L (guess.zip solution) rem0
  have hrem0L : rem0 L = solution.count L -
      ((guess.zip solution).countP (fun p => decide (p.1 = L ∧ p.1 = p.2))) := rfl
  have hcorr_le : (guess.zip solution).countP (fun p => decide (p.1 = L ∧ p.1 = p.2))
      ≤ solution.count L := by
    have hmono : (guess.zip solution).countP (fun p => decide (p.1 = L ∧ p.1 = p.2))
        ≤ (guess.zip solution).countP (fun p => decide (p.2 = L)) := by
      refine List.countP_mono_left ?_
      intro p hp hdec
      rw [decide_eq_true_eq] at hdec
      rw [decide_eq_true_eq]
      rw [← hdec.2, hdec.1]
    rw [countP_zip_snd_le L guess solution hlen] at hmono
    exact hmono
  have hfst : (guess.zip solution).countP (fun p => decide (p.1 = L)) = guess.count L :=
    countP_zip_fst L guess solution hlen
  rw [hfst] at hb2
  rw [hrem0L] at hb1
  omega

/-- Witness for C2: the duplicate-letter scenario `SPEED` against `ERASE`
with letter `E`. -/
theorem multiplicity_law_witness :
    ((['S','P','E','E','D'] : List Char).length = (['E','R','A','S','E'] : List Char).length) ∧
      (scoreWord ['S','P','E','E','D'] ['E','R','A','S','E']).countP
          (fun l => decide (l.text = 'E' ∧
            (l.state = LetterState.inCorrectPosition ∨ l.state = LetterState.inWord)))
        ≤ min ((['S','P','E','E','D'] : List Char).count 'E')
            ((['E','R','A','S','E'] : List Char).count 'E') :=
  ⟨by decide, multiplicity_law ['S','P','E','E','D'] ['E','R','A','S','E'] (by decide) 'E'⟩

lemma bool_eq_false_of_ne_true {b : Bool} (h : ¬ b = true) : b = false := by
  cases b
  · rfl
  · exact absurd rfl h

lemma guessWord_cases (g : Game) (s : List Char) :
    (g.guessWord s).1 = g ∨
      (g.gameOver = false ∧ s.length = WORD_LENGTH ∧
        (s.map Char.toUpper) ∈ g.validGuesses ∧
        g.hardViolation (s.map Char.toUpper) = false ∧
        g.guessWord s = (g.applyGuess (s.map Char.toUpper), none)) := by
  rw [Game.guessWord]
  by_cases h0 : g.gameOver = true
  · rw [if_pos h0]
    exact Or.inl rfl
  · rw [if_neg h0]
    by_cases h1 : s = [] ∨ s.length ≠ WORD_LENGTH
    · rw [if_pos h1]
      exact Or.inl rfl
    · rw [if_neg h1]
      by_cases h2 : (s.map Char.toUpper) ∈ g.validGuesses
      · rw [if_neg (not_not_intro h2)]
        by_cases h3 : g.hardViolation (s.map Char.toUpper) = true
        · rw [if_pos h3]
          exact Or.inl rfl
        · rw [if_neg h3]
          refine Or.inr ⟨bool_eq_false_of_ne_true h0, ?_, h2,
            bool_eq_false_of_ne_true h3, rfl⟩
          rcases not_or.mp h1 with ⟨-, h⟩
          exact not_not.mp h
      · rw [if_pos h2]
        exact Or.inl rfl

lemma hardViolation_iff (g : Game) (u : List Char) :
    g.hardViolation u = true ↔
      (g.hardMode = true ∧ g.attempts ≠ [] ∧ ∃ i,
        i < (g.attempts.getLastD ⟨[]⟩).letters.length ∧
        ((g.attempts.getLastD ⟨[]⟩).letters.getD i dL).state = LetterState.inCorrectPosition ∧
        ¬ u.getD i ' ' = ((g.attempts.getLastD ⟨[]⟩).letters.getD i dL).text) := by
  constructor
  · intro h
    rw [Game.hardViolation, Bool.and_eq_true, Bool.and_eq_true] at h
    obtain ⟨⟨hA, hB⟩, hC⟩ := h
    refine ⟨hA, ?_, ?_⟩
    · intro hnil
      rw [hnil] at hB
      simp at hB
    · rw [List.any_eq_true] at hC
      obtain ⟨i, hi_mem, hpred⟩ := hC
      rw [List.mem_range] at hi_mem
      rw [Bool.and_eq_true, decide_eq_true_eq, decide_eq_true_eq] at hpred
      exact ⟨i, hi_mem, hpred.1, hpred.2⟩
  · rintro ⟨hA, hB, i, hi, hst, htx⟩
    rw [Game.hardViolation, Bool.and_eq_true, Bool.and_eq_true]
    have hBe : (!g.attempts.isEmpty) = true := by
      cases hat : g.attempts
      · exact absurd hat hB
      · rfl
    refine ⟨⟨hA, hBe⟩, ?_⟩
    rw [List.any_eq_true]
    refine ⟨i, List.mem_range.mpr hi, ?_⟩
    rw [Bool.and_eq_true, decide_eq_true_eq, decide_eq_true_eq]
    exact ⟨hst, htx⟩

/-- C3: with hard mode on and a previous attempt present, a guess that passed
the length and existence checks is rejected with `HardModeRuleViolation` iff
some position classified `Correct` in the most recent attempt holds a
different letter in the new guess; this signal is distinct from the length and
existence violations. -/
theorem hard_mode_rejection_iff (g : Game) (s : List Char)
    (hhm : g.hardMode = true) (hne : g.attempts ≠ [])
    (hgo : g.gameOver = false) (hlen : s.length = WORD_LENGTH)
    (hmem : (s.map Char.toUpper) ∈ g.validGuesses) :
    ((g.guessWord s).2 = some Violation.hardModeRule ↔
      ∃ i, i < (g.attempts.getLastD ⟨[]⟩).letters.length ∧
        ((g.attempts.getLastD ⟨[]⟩).letters.getD i dL).state = LetterState.inCorrectPosition ∧
        ¬ (s.map Char.toUpper).getD i ' ' =
          ((g.attempts.getLastD ⟨[]⟩).letters.getD i dL).text) ∧
      Violation.hardModeRule ≠ Violation.wordLength ∧
      Violation.hardModeRule ≠ Violation.wordExistence := by
  refine ⟨?_, by decide, by decide⟩
  have h1 : ¬ (s = [] ∨ s.length ≠ WORD_LENGTH) := by
    rintro (rfl | hl)
    · simp [WORD_LENGTH] at hlen
    · exact hl hlen
  rw [Game.guessWord, if_neg (by simp [hgo]), if_neg h1, if_neg (not_not_intro hmem)]
  by_cases h3 : g.hardViolation (s.map Char.toUpper) = true
  · rw [if_pos h3]
    constructor
    · intro _
      exact ((hardViolation_iff g (s.map Char.toUpper)).mp h3).2.2
    · intro _
      rfl
  · rw [if_neg h3]
    constructor
    · intro hcontra
      simp at hcontra
    · intro hex
      exact absurd ((hardViolation_iff g (s.map Char.toUpper)).mpr ⟨hhm, hne, hex⟩) h3

/-- Witness for C3: in the hard-mode session after `AZZZZ` scored `A` as
`Correct` at position 0, the guess `QUICK` is rejected with the hard-mode
signal. -/
theorem hard_mode_rejection_iff_witness :
    ((testGameHard1.guessWord wQUICK).2 = some Violation.hardModeRule ↔
      ∃ i, i < (testGameHard1.attempts.getLastD ⟨[]⟩).letters.length ∧
        ((testGameHard1.attempts.getLastD ⟨[]⟩).letters.getD i dL).state =
          LetterState.inCorrectPosition ∧
        ¬ (wQUICK.map Char.toUpper).getD i ' ' =
          ((testGameHard1.attempts.getLastD ⟨[]⟩).letters.getD i dL).text) ∧
      Violation.hardModeRule ≠ Violation.wordLength ∧
      Violation.hardModeRule ≠ Violation.wordExistence :=
  hard_mode_rejection_iff testGameHard1 wQUICK (by decide) (by decide) (by decide)
    (by decide) (by decide)

/-- C4: whenever `Game.guess_word` rejects a guess with any of the three
violations, the whole session state is unchanged. -/
theorem rejected_guess_preserves_state (g : Game) (s : List Char) (v : Violation)
    (h : (g.guessWord s).2 = some v) : (g.guessWord s).1 = g := by
  rcases guessWord_cases g s with hc | ⟨-, -, -, -, heq⟩
  · exact hc
  · rw [heq] at h
    simp at h

/-- Witness for C4: a too-short guess is rejected with the length violation
and leaves the session untouched. -/
theorem rejected_guess_preserves_state_witness :
    (testGame.guessWord ['A', 'B']).2 = some Violation.wordLength ∧
      (testGame.guessWord ['A', 'B']).1 = testGame :=
  ⟨by decide, rejected_guess_preserves_state testGame ['A', 'B']
    Violation.wordLength (by decide)⟩

/-- C10: once the session is terminal, `Game.guess_word` performs no
validation at all: for every raw guess string it returns with no violation and
no state change. -/
theorem guessWord_terminal_noop (g : Game) (s : List Char)
    (h : g.gameOver = true) : g.guessWord s = (g, none) := by
  rw [Game.guessWord, if_pos h]

/-- Witness for C10: in a won session even a malformed, out-of-dictionary
guess is silently ignored. -/
theorem guessWord_terminal_noop_witness :
    testGameWon.gameOver = true ∧
      testGameWon.guessWord ['X', 'X', 'X'] = (testGameWon, none) :=
  ⟨by decide, guessWord_terminal_noop testGameWon ['X', 'X', 'X'] (by decide)⟩

lemma getLastD_eq_getD {α : Type} (l : List α) (d : α) :
    l.getLastD d = l.getD (l.length - 1) d := by
  rw [List.getLastD_eq_getLast? d l, List.getLast?_eq_getElem? l, List.getD_eq_getElem?_getD]

lemma applyGuess_attempts (g : Game) (u : List Char) :
    (g.applyGuess u).attempts = g.attempts ++ [⟨scoreWord u g.solution⟩] := rfl

lemma guessWord_fst_eq (g : Game) (s : List Char) :
    (g.guessWord s).1 = g ∨
      (g.gameOver = false ∧ s.length = WORD_LENGTH ∧
        (s.map Char.toUpper) ∈ g.validGuesses ∧
        g.hardViolation (s.map Char.toUpper) = false ∧
        (g.guessWord s).1 = g.applyGuess (s.map Char.toUpper)) := by
  rcases guessWord_cases g s with hc | ⟨h0, h1, h2, h3, heq⟩
  · exact Or.inl hc
  · exact Or.inr ⟨h0, h1, h2, h3, by rw [heq]⟩

lemma gameOver_false_length (g : Game) (h : g.gameOver = false) :
    g.attempts.length < MAX_ATTEMPTS := by
  rw [Game.gameOver] at h
  obtain ⟨-, h2⟩ := Bool.or_eq_false_iff.mp h
  rw [decide_eq_false_iff_not] at h2
  omega

lemma reachable_attempts_le (g : Game) (h : Reachable g) :
    g.attempts.length ≤ MAX_ATTEMPTS := by
  induction h with
  | init hi =>
      rw [hi.1]
      simp [MAX_ATTEMPTS]
  | @step g2 s hr ih =>
      rcases guessWord_fst_eq g2 s with hc | ⟨hgo, -, -, -, heq⟩
      · rw [hc]
        exact ih
      · rw [heq, applyGuess_attempts, List.length_append]
        have := gameOver_false_length g2 hgo
        simp only [List.length_singleton]
        omega

/-- C5: in every reachable session the attempt count never exceeds the
maximum, and once the session is terminal a call to `guess_word` has no effect
at all. -/
theorem attempts_bounded_and_terminal_frozen (g : Game) (h : Reachable g) :
    g.attempts.length ≤ MAX_ATTEMPTS ∧
      (g.gameOver = true → ∀ s, g.guessWord s = (g, none)) := by
  refine ⟨reachable_attempts_le g h, ?_⟩
  intro hgo s
  rw [Game.guessWord, if_pos hgo]

/-- Witness for C5 at a fresh session. -/
theorem attempts_bounded_and_terminal_frozen_witness :
    testGame.attempts.length ≤ MAX_ATTEMPTS :=
  (attempts_bounded_and_terminal_frozen testGame
    (Reachable.init ⟨rfl, rfl, by decide⟩)).1

lemma formulaState_correct_iff (guess solution : List Char) (i : Nat) :
    formulaState guess solution i = LetterState.inCorrectPosition ↔
      guess.getD i ' ' = solution.getD i ' ' := by
  unfold formulaState
  by_cases h : guess.getD i ' ' = solution.getD i ' '
  · rw [if_pos h]
    exact ⟨fun _ => h, fun _ => rfl⟩
  · rw [if_neg h]
    constructor
    · intro hcon
      by_cases h2 : guess.getD i ' ' ∈ solution ∧
          rankUpTo guess solution i (guess.getD i ' ') +
            corrCount guess solution (guess.getD i ' ') <
            solution.count (guess.getD i ' ')
      · rw [if_pos h2] at hcon
        exact absurd hcon (by decide)
      · rw [if_neg h2] at hcon
        exact absurd hcon (by decide)
    · intro hcon
      exact absurd hcon h

lemma reachable_invariant (g : Game) (h : Reachable g) :
    g.solution.length = WORD_LENGTH ∧
      ∀ w ∈ g.attempts, w.letters.length = WORD_LENGTH ∧
        ∀ i, i < WORD_LENGTH →
          (((w.letters.getD i dL).state = LetterState.inCorrectPosition) ↔
            (w.letters.getD i dL).text = g.solution.getD i ' ') := by
  induction h with
  | init hi =>
      refine ⟨hi.2.2, ?_⟩
      intro w hw
      rw [hi.1] at hw
      simp at hw
  | @step g2 s hr ih =>
      obtain ⟨hsol, hw_old⟩ := ih
      rcases guessWord_fst_eq g2 s with hc | ⟨-, hlen, -, -, heq⟩
      · rw [hc]
        exact ⟨hsol, hw_old⟩
      · rw [heq]
        refine ⟨hsol, ?_⟩
        intro w hw
        rw [applyGuess_attempts] at hw
        rcases List.mem_append.mp hw with hw2 | hw2
        · exact hw_old w hw2
        · have hweq : w = ⟨scoreWord (s.map Char.toUpper) g2.solution⟩ :=
            List.mem_singleton.mp hw2
          subst hweq
          have hulen : (s.map Char.toUpper).length = g2.solution.length := by
            rw [List.length_map, hlen, hsol]
          constructor
          · show (scoreWord (s.map Char.toUpper) g2.solution).length = WORD_LENGTH
            rw [scoreWord_length, hulen, hsol]
            simp
          · intro i hi2
            have hiu : i < (s.map Char.toUpper).length := by
              rw [List.length_map, hlen]
              exact hi2
            show ((scoreWord (s.map Char.toUpper) g2.solution).getD i dL).state =
                LetterState.inCorrectPosition ↔ _
            rw [scoreWord_getD (s.map Char.toUpper) g2.solution hulen i hiu]
            exact formulaState_correct_iff (s.map Char.toUpper) g2.solution i

/-- C6: in a reachable hard-mode session, once some attempt classifies
position `i` as `Correct`, every later attempt carries the same letter at
position `i` (established by induction, since the validator only consults the
immediately preceding attempt). -/
theorem hard_mode_monotonicity (g : Game) (h : Reachable g) :
    g.hardMode = true →
      ∀ j k, j ≤ k → k < g.attempts.length →
        ∀ i, i < WORD_LENGTH →
          ((g.attempts.getD j ⟨[]⟩).letters.getD i dL).state =
            LetterState.inCorrectPosition →
          ((g.attempts.getD k ⟨[]⟩).letters.getD i dL).text =
            ((g.attempts.getD j ⟨[]⟩).letters.getD i dL).text := by
  induction h with
  | init hi =>
      intro _ j k hjk hk i hi2 hst
      rw [hi.1] at hk
      simp at hk
  | @step g2 s hr ih =>
      intro hhm j k hjk hk i hi2 hst
      rcases guessWord_fst_eq g2 s with hc | ⟨-, hlen, -, hhv, heq⟩
      · rw [hc] at hhm hk hst ⊢
        exact ih hhm j k hjk hk i hi2 hst
      · rw [heq] at hhm hk hst ⊢
        have hhm2 : g2.hardMode = true := hhm
        obtain ⟨hsol, hattinv⟩ := reachable_invariant g2 hr
        have hulen : (s.map Char.toUpper).length = g2.solution.length := by
          rw [List.length_map, hlen, hsol]
        rw [applyGuess_attempts] at hk hst ⊢
        rw [List.length_append, List.length_singleton] at hk
        by_cases hkold : k < g2.attempts.length
        · have hjold : j < g2.attempts.length := by omega
          rw [List.getD_append _ _ _ _ hjold] at hst
          rw [List.getD_append _ _ _ _ hkold, List.getD_append _ _ _ _ hjold]
          exact ih hhm2 j k hjk hkold i hi2 hst
        · have hkeq : k = g2.attempts.length := by omega
          by_cases hjold : j < g2.attempts.length
          · rw [List.getD_append _ _ _ _ hjold] at hst ⊢
            have hgetk : (g2.attempts ++
                [(⟨scoreWord (s.map Char.toUpper) g2.solution⟩ : Word)]).getD k ⟨[]⟩ =
                ⟨scoreWord (s.map Char.toUpper) g2.solution⟩ := by
              rw [hkeq]
              simp [List.getD_eq_getElem?_getD]
            rw [hgetk]
            have hiu : i < (s.map Char.toUpper).length := by
              rw [List.length_map, hlen]
              exact hi2
            show ((scoreWord (s.map Char.toUpper) g2.solution).getD i dL).text = _
            rw [scoreWord_getD (s.map Char.toUpper) g2.solution hulen i hiu]
            show (s.map Char.toUpper).getD i ' ' = _
            have hne2 : g2.attempts ≠ [] := by
              intro h0
              rw [h0] at hjold
              simp at hjold
            have hlast_text := ih hhm2 j (g2.attempts.length - 1) (by omega) (by omega)
              i hi2 hst
            have hjmem : g2.attempts.getD j ⟨[]⟩ ∈ g2.attempts := by
              rw [List.getD_eq_getElem _ _ hjold]
              exact List.getElem_mem hjold
            have hlmem : g2.attempts.getD (g2.attempts.length - 1) ⟨[]⟩ ∈ g2.attempts := by
              have hlt : g2.attempts.length - 1 < g2.attempts.length := by omega
              rw [List.getD_eq_getElem _ _ hlt]
              exact List.getElem_mem hlt
            have hjinv := hattinv _ hjmem
            have hlinv := hattinv _ hlmem
            have hXsol : ((g2.attempts.getD j ⟨[]⟩).letters.getD i dL).text =
                g2.solution.getD i ' ' := (hjinv.2 i hi2).mp hst
            have hlast_corr : ((g2.attempts.getD (g2.attempts.length - 1)
                ⟨[]⟩).letters.getD i dL).state = LetterState.inCorrectPosition :=
              (hlinv.2 i hi2).mpr (by rw [hlast_text, hXsol])
            have hnv : ¬ (g2.hardViolation (s.map Char.toUpper) = true) := by
              rw [hhv]
              simp
            rw [hardViolation_iff, getLastD_eq_getD] at hnv
            have hmatch : (s.map Char.toUpper).getD i ' ' =
                ((g2.attempts.getD (g2.attempts.length - 1) ⟨[]⟩).letters.getD i dL).text := by
              by_contra hne3
              exact hnv ⟨hhm2, hne2, i, by rw [hlinv.1]; exact hi2, hlast_corr, hne3⟩
            exact hmatch.trans hlast_text
          · have hjeq : j = g2.attempts.length := by omega
            rw [hjeq, hkeq]

/-- Witness for C6: in the hard-mode session after `AZZZZ` (scoring `A`
`Correct` at position 0 against `ABIDE`), the trivial instance with the first
attempt compared to itself. -/
theorem hard_mode_monotonicity_witness :
    ((((testGameHard.guessWord wAZZZZ).1).attempts.getD 0 ⟨[]⟩).letters.getD 0 dL).text =
      ((((testGameHard.guessWord wAZZZZ).1).attempts.getD 0 ⟨[]⟩).letters.getD 0 dL).text :=
  hard_mode_monotonicity ((testGameHard.guessWord wAZZZZ).1)
    (Reachable.step wAZZZZ (Reachable.init ⟨rfl, rfl, by decide⟩))
    (by decide) 0 0 (by decide) (by decide) 0 (by decide) (by decide)

lemma formulaState_inWord_facts (guess solution : List Char) (i : Nat)
    (h : formulaState guess solution i = LetterState.inWord) :
    ¬ guess.getD i ' ' = solution.getD i ' ' ∧ guess.getD i ' ' ∈ solution := by
  unfold formulaState at h
  by_cases ha : guess.getD i ' ' = solution.getD i ' '
  · rw [if_pos ha] at h
    exact absurd h (by decide)
  · rw [if_neg ha] at h
    by_cases hb : guess.getD i ' ' ∈ solution ∧
        rankUpTo guess solution i (guess.getD i ' ') +
          corrCount guess solution (guess.getD i ' ') <
          solution.count (guess.getD i ' ')
    · exact ⟨ha, hb.1⟩
    · rw [if_neg hb] at h
      exact absurd h (by decide)

lemma scored_occurrence_of_mem (guess solution : List Char)
    (hlen : guess.length = solution.length) (i : Nat) (hi : i < guess.length)
    (hmem : guess.getD i ' ' ∈ solution)
    (hnot : formulaState guess solution i = LetterState.notInWord) :
    ∃ p, p < guess.length ∧
      ((scoreWord guess solution).getD p dL).text = guess.getD i ' ' ∧
      (((scoreWord guess solution).getD p dL).state = LetterState.inWord ∨
        ((scoreWord guess solution).getD p dL).state = LetterState.inCorrectPosition) := by
  have hcount : 0 < solution.count (guess.getD i ' ') := List.count_pos_iff.mpr hmem
  by_cases hcorr : 0 < corrCount guess solution (guess.getD i ' ')
  · rw [corrCount] at hcorr
    obtain ⟨a, ha_mem, ha_pred⟩ := List.countP_pos_iff.mp hcorr
    rw [decide_eq_true_eq] at ha_pred
    obtain ⟨p, hp, hpeq⟩ := List.mem_iff_getElem.mp ha_mem
    have hpg : p < guess.length := by rw [List.length_zip] at hp; omega
    have hps : p < solution.length := by omega
    have ha2 : a = (guess.getD p ' ', solution.getD p ' ') := by
      rw [← hpeq, ← List.getD_eq_getElem _ dP hp, zip_getD guess solution p hpg hps]
    rw [ha2] at ha_pred
    have hpa : guess.getD p ' ' = guess.getD i ' ' := ha_pred.1
    have hpb : solution.getD p ' ' = guess.getD i ' ' := ha_pred.2
    refine ⟨p, hpg, ?_, Or.inr ?_⟩
    · rw [scoreWord_getD guess solution hlen p hpg]
      exact hpa
    · rw [scoreWord_getD guess solution hlen p hpg]
      show formulaState guess solution p = LetterState.inCorrectPosition
      rw [formulaState_correct_iff]
      rw [hpa, hpb]
  · have hcorr0 : corrCount guess solution (guess.getD i ' ') = 0 := by omega
    have hne : ¬ guess.getD i ' ' = solution.getD i ' ' := by
      intro heq
      rw [(formulaState_correct_iff guess solution i).mpr heq] at hnot
      exact absurd hnot (by decide)
    have hexP : ∃ j, j < guess.length ∧ guess.getD j ' ' = guess.getD i ' ' ∧
        ¬ guess.getD j ' ' = solution.getD j ' ' := ⟨i, hi, rfl, hne⟩
    obtain ⟨hj0len, hj0g, hj0ne⟩ := Nat.find_spec hexP
    have hj0min := fun m (hm : m < Nat.find hexP) => Nat.find_min hexP hm
    have hrank0 : rankUpTo guess solution (Nat.find hexP) (guess.getD i ' ') = 0 := by
      rw [rankUpTo, List.countP_eq_zero]
      intro a ha
      obtain ⟨m, hm, hmeq⟩ := List.mem_iff_getElem.mp ha
      have hmlt : m < Nat.find hexP := by
        rw [List.length_take] at hm
        omega
      have hmz : m < (guess.zip solution).length := by
        rw [List.length_take] at hm
        omega
      have hmg : m < guess.length := by rw [List.length_zip] at hmz; omega
      have hms : m < solution.length := by omega
      have hma : a = (guess.getD m ' ', solution.getD m ' ') := by
        rw [← hmeq, List.getElem_take, ← List.getD_eq_getElem _ dP hmz,
          zip_getD guess solution m hmg hms]
      intro hpred
      rw [decide_eq_true_eq, hma] at hpred
      have hq1 : guess.getD m ' ' = guess.getD i ' ' := hpred.1
      have hq2 : ¬ guess.getD m ' ' = solution.getD m ' ' := hpred.2
      exact hj0min m hmlt ⟨hmg, hq1, hq2⟩
    refine ⟨Nat.find hexP, hj0len, ?_, Or.inl ?_⟩
    · rw [scoreWord_getD guess solution hlen _ hj0len]
      exact hj0g
    · rw [scoreWord_getD guess solution hlen _ hj0len]
      show formulaState guess solution (Nat.find hexP) = LetterState.inWord
      unfold formulaState
      rw [if_neg hj0ne]
      have hcond : guess.getD (Nat.find hexP) ' ' ∈ solution ∧
          rankUpTo guess solution (Nat.find hexP) (guess.getD (Nat.find hexP) ' ') +
            corrCount guess solution (guess.getD (Nat.find hexP) ' ') <
            solution.count (guess.getD (Nat.find hexP) ' ') := by
        rw [hj0g]
        refine ⟨hmem, ?_⟩
        rw [hrank0, hcorr0]
        omega
      rw [if_pos hcond]

/-- C7: a solver elimination step applied with the scored letter at position
`i` of an attempt scored against the true solution yields a sublist of the
candidate set (so its size never increases) and never removes the true
solution — in particular the `Absent` branch only excludes a letter when no
occurrence of that letter was classified `Present` or `Correct` elsewhere in
the attempt. -/
theorem solver_step_safe (guess solution : List Char) (cands : List (List Char))
    (hlen : guess.length = solution.length) (i : Nat) (hi : i < guess.length)
    (hsmem : solution ∈ cands) :
    List.Sublist
      (eliminateStep cands ⟨scoreWord guess solution⟩ i
        ((scoreWord guess solution).getD i dL)) cands ∧
    (eliminateStep cands ⟨scoreWord guess solution⟩ i
        ((scoreWord guess solution).getD i dL)).length ≤ cands.length ∧
    solution ∈ eliminateStep cands ⟨scoreWord guess solution⟩ i
      ((scoreWord guess solution).getD i dL) := by
  rw [scoreWord_getD guess solution hlen i hi]
  unfold eliminateStep
  by_cases h1 : formulaState guess solution i = LetterState.inCorrectPosition
  · rw [if_pos h1]
    unfold filterCandidatesForExactMatch
    refine ⟨List.filter_sublist cands, List.length_filter_le _ cands, ?_⟩
    rw [List.mem_filter]
    refine ⟨hsmem, ?_⟩
    rw [decide_eq_true_eq]
    exact ((formulaState_correct_iff guess solution i).mp h1).symm
  · rw [if_neg h1]
    by_cases h2 : formulaState guess solution i = LetterState.inWord
    · rw [if_pos h2]
      unfold filterCandidatesForInexactMatch
      refine ⟨List.filter_sublist cands, List.length_filter_le _ cands, ?_⟩
      rw [List.mem_filter]
      refine ⟨hsmem, ?_⟩
      rw [decide_eq_true_eq]
      have hfacts := formulaState_inWord_facts guess solution i h2
      exact ⟨fun hq => hfacts.1 hq.symm, hfacts.2⟩
    · rw [if_neg h2]
      by_cases h3 : formulaState guess solution i = LetterState.notInWord ∧
          ¬ (Word.mk (scoreWord guess solution)).letters.any (fun l2 =>
            decide (l2.text = guess.getD i ' ') &&
              (decide (l2.state = LetterState.inWord) ||
                decide (l2.state = LetterState.inCorrectPosition)))
      · rw [if_pos h3]
        unfold excludeCandidates
        refine ⟨List.filter_sublist cands, List.length_filter_le _ cands, ?_⟩
        rw [List.mem_filter]
        refine ⟨hsmem, ?_⟩
        rw [decide_eq_true_eq]
        intro hLmem
        obtain ⟨hnw, hguard⟩ := h3
        obtain ⟨p, hp, htext, hstate⟩ :=
          scored_occurrence_of_mem guess solution hlen i hi hLmem hnw
        apply hguard
        rw [List.any_eq_true]
        have hplen : p < (scoreWord guess solution).length := by
          rw [scoreWord_length]
          omega
        have hmem2 : (scoreWord guess solution).getD p dL ∈ scoreWord guess solution := by
          rw [List.getD_eq_getElem _ _ hplen]
          exact List.getElem_mem hplen
        refine ⟨(scoreWord guess solution).getD p dL, hmem2, ?_⟩
        rw [Bool.and_eq_true, Bool.or_eq_true, decide_eq_true_eq, decide_eq_true_eq,
          decide_eq_true_eq]
        refine ⟨htext, ?_⟩
        rcases hstate with hs | hs
        · exact Or.inl hs
        · exact Or.inr hs
      · rw [if_neg h3]
        exact ⟨List.Sublist.refl cands, Nat.le_refl _, hsmem⟩

/-- Witness for C7: the `Absent` step for `P` of `SPEED` scored against
`ERASE`, over a candidate set containing the solution and a `P`-word. -/
theorem solver_step_safe_witness :
    List.Sublist
      (eliminateStep [['E','R','A','S','E'], ['P','Z','Z','Z','Z']]
        ⟨scoreWord ['S','P','E','E','D'] ['E','R','A','S','E']⟩ 1
        ((scoreWord ['S','P','E','E','D'] ['E','R','A','S','E']).getD 1 dL))
      [['E','R','A','S','E'], ['P','Z','Z','Z','Z']] ∧
    (eliminateStep [['E','R','A','S','E'], ['P','Z','Z','Z','Z']]
        ⟨scoreWord ['S','P','E','E','D'] ['E','R','A','S','E']⟩ 1
        ((scoreWord ['S','P','E','E','D'] ['E','R','A','S','E']).getD 1 dL)).length ≤
      ([['E','R','A','S','E'], ['P','Z','Z','Z','Z']] : List (List Char)).length ∧
    ['E','R','A','S','E'] ∈ eliminateStep [['E','R','A','S','E'], ['P','Z','Z','Z','Z']]
      ⟨scoreWord ['S','P','E','E','D'] ['E','R','A','S','E']⟩ 1
      ((scoreWord ['S','P','E','E','D'] ['E','R','A','S','E']).getD 1 dL) :=
  solver_step_safe ['S','P','E','E','D'] ['E','R','A','S','E']
    [['E','R','A','S','E'], ['P','Z','Z','Z','Z']] (by decide) 1 (by decide) (by decide)

lemma foldl_update_letters (ls : List Letter) :
    ∀ (init : Char → LetterState) (c : Char),
      (ls.foldl (fun m l => Function.update m l.text l.state) init) c =
        (lastOcc ls c).getD (init c) := by
  induction ls with
  | nil =>
      intro init c
      rfl
  | cons l ls ih =>
      intro init c
      rw [List.foldl_cons, ih (Function.update init l.text l.state) c]
      cases hlo : lastOcc ls c with
      | some s => simp [lastOcc, hlo]
      | none =>
          simp only [lastOcc, hlo]
          by_cases hlc : l.text = c
          · rw [if_pos hlc, ← hlc, Function.update_same]
            rfl
          · rw [if_neg hlc, Function.update_noteq (fun hq => hlc hq.symm)]

/-- C8 counterexample: after the successful guesses `AZZZZ` then `BBBBB` in a
session with solution `ABIDE`, letter `A` was classified `Correct` in the
first attempt — its best-known classification across all attempts is
`Correct` — yet the keyboard map holds `Unknown` for `A`, because each
successful guess resets non-`Absent` keys and rewrites only the letters of the
current guess. -/
theorem keyboard_not_best_known :
    ((testGame.guessWord wAZZZZ).1.guessWord wBBBBB).2 = none ∧
      (((testGame.guessWord wAZZZZ).1.guessWord wBBBBB).1).letters 'A' =
        LetterState.unknown ∧
      bestKnown (((testGame.guessWord wAZZZZ).1.guessWord wBBBBB).1) 'A' =
        LetterState.inCorrectPosition ∧
      LetterState.unknown ≠ LetterState.inCorrectPosition :=
  ⟨by decide, by decide, by decide, by decide⟩

/-- C8 as amended: after a successful guess, the keyboard maps a character to
the classification of its last occurrence in the newly scored attempt when
the character occurs in the guess; any other character maps to `Absent` if it
had been `Absent` before and to `Unknown` otherwise. -/
theorem keyboard_after_guess (g : Game) (s : List Char) (c : Char)
    (hgo : g.gameOver = false) (hlen : s.length = WORD_LENGTH)
    (hmem : (s.map Char.toUpper) ∈ g.validGuesses)
    (hhv : g.hardViolation (s.map Char.toUpper) = false) :
    ((g.guessWord s).1).letters c =
      (lastOcc (scoreWord (s.map Char.toUpper) g.solution) c).getD
        (if g.letters c = LetterState.notInWord then LetterState.notInWord
          else LetterState.unknown) := by
  have h1 : ¬ (s = [] ∨ s.length ≠ WORD_LENGTH) := by
    rintro (rfl | hl)
    · simp [WORD_LENGTH] at hlen
    · exact hl hlen
  rw [Game.guessWord, if_neg (by simp [hgo]), if_neg h1,
    if_neg (not_not_intro hmem), if_neg (by simp [hhv])]
  show ((scoreWord (s.map Char.toUpper) g.solution).foldl
      (fun m l => Function.update m l.text l.state)
      (fun c2 => if g.letters c2 = LetterState.notInWord then LetterState.notInWord
        else LetterState.unknown)) c = _
  rw [foldl_update_letters]

/-- Witness for the amended C8 at the first guess of the test session. -/
theorem keyboard_after_guess_witness :
    ((testGame.guessWord wAZZZZ).1).letters 'A' =
      (lastOcc (scoreWord (wAZZZZ.map Char.toUpper) testGame.solution) 'A').getD
        (if testGame.letters 'A' = LetterState.notInWord then LetterState.notInWord
          else LetterState.unknown) :=
  keyboard_after_guess testGame wAZZZZ 'A' (by decide) (by decide) (by decide) (by decide)

/-- C9: with an empty candidate set, `AIGame.get_guess` prints the solved-it
message — reporting success — and the `random.choice` call fails with a
generic out-of-range condition; the code never detects emptiness and has no
distinct fatal signal for it. -/
theorem empty_candidates_no_detection :
    solverMessage ([] : List (List Char)) = SolverMessage.solvedIt ∧
      randomChoice ([] : List (List Char)) 0 = none :=
  ⟨rfl, rfl⟩

end Wordye
